import Mathlib

/-!
Verification of the rate-limited, deduplicating task dispatcher of the
free-claude-code repository.  Two source variants are embedded:

* `src/messaging/limiter.py` (asyncio variant): a compaction queue
  (`_queue_list` / `_queue_map`), a worker that pops the front key, executes
  the installed action and, on an error whose message contains "flood" or
  "wait", pauses and re-queues the item at the front.
* `src/messaging/rate_limiter.py` (thread variant): a worker thread that
  pulls items, skips items whose future is already done, executes, and on an
  error carrying a truthy `seconds` attribute max-merges the pause deadline
  and then settles the future with the exception.

Actions are abstract (type `A`); futures are identified by `Nat` and their
settlement state lives in a store `Nat → Option (FutVal V)`; `none` means the
future is still pending (`future.done()` is false).
-/

/-- A Python exception as the dispatcher sees it: its string representation
and the optional `seconds` attribute (Telethon flood errors carry one). -/
structure PyErr where
  msg : String
  seconds : Option Nat
  deriving DecidableEq, Repr

/-- The settled state of a future: a result value, an exception, or
cancellation (`future.cancel()`). A pending future has no `FutVal`. -/
inductive FutVal (V : Type) where
  | value (v : V)
  | error (e : PyErr)
  | cancelled
  deriving DecidableEq, Repr

/-- The guarded settlement pattern used everywhere in both variants:
`if not future.done(): future.set_result(...)` (and likewise
`set_exception` / `cancel`). A store maps future ids to their settled
state; `none` is pending. -/
def trySettle {V : Type} (store : Nat → Option (FutVal V)) (fid : Nat)
    (r : FutVal V) : Nat → Option (FutVal V) :=
  fun i =>
    if i = fid then
      match store fid with
      | some x => some x
      | none => some r
    else store i

/-- Queue state of the asyncio variant (`limiter.py`):
`_queue_list` (dedup keys in order) and `_queue_map`
(dedup key → (func, future)). The map is modelled extensionally. -/
structure LimiterState (A : Type) where
  queueList : List String
  queueMap : String → Option (A × Nat)

/-- The spec's queue-state invariant: `order` and `pending` have identical
key-sets and a key appears in `order` at most once. -/
def queueInvariant {A : Type} (s : LimiterState A) : Prop :=
  (∀ k, k ∈ s.queueList ↔ (s.queueMap k).isSome) ∧ s.queueList.Nodup

/-- `GlobalRateLimiter._enqueue_internal` (limiter.py lines 124-141).
If the key is already pending, install the new func but keep the stored
(older) future and do not touch the order list; otherwise insert into the
map and prepend (`front=True`) or append the key to the list. -/
def enqueueInternal {A : Type} (func : A) (future : Nat) (dedupKey : String)
    (front : Bool) (s : LimiterState A) : LimiterState A :=
  match s.queueMap dedupKey with
  | some (_, oldFuture) =>
      { s with queueMap := fun k =>
          if k = dedupKey then some (func, oldFuture) else s.queueMap k }
  | none =>
      { queueList :=
        if front then dedupKey :: s.queueList else s.queueList ++ [dedupKey],
        queueMap := fun k =>
          if k = dedupKey then some (func, future) else s.queueMap k }

/-- The pop at the top of `GlobalRateLimiter._worker` (limiter.py lines
76-77): `dedup_key = self._queue_list.pop(0); func, future =
self._queue_map.pop(dedup_key)`. Returns the popped work item and the
remaining state; `none` when the queue is empty (the worker waits) or the
map is missing the key (impossible under the invariant). -/
def workerPop {A : Type} (s : LimiterState A) :
    Option ((String × A × Nat) × LimiterState A) :=
  match s.queueList with
  | [] => none
  | k :: rest =>
    match s.queueMap k with
    | none => none
    | some (f, fut) =>
      some ((k, f, fut),
        { queueList := rest,
          queueMap := fun q => if q = k then none else s.queueMap q })

/-- Substring containment on character lists, as Python's `"flood" in s`. -/
def containsSub (pat : List Char) : List Char → Bool
  | [] => pat.isEmpty
  | c :: cs => pat.isPrefixOf (c :: cs) || containsSub pat cs

/-- The flood classification of limiter.py lines 96-97:
`error_msg = str(e).lower(); if "flood" in error_msg or "wait" in error_msg`. -/
def isFloodMsg (msg : String) : Bool :=
  let m := msg.data.map Char.toLower
  containsSub "flood".data m || containsSub "wait".data m

/-- Cooldown extraction of limiter.py lines 98-103: `seconds = 30;
if hasattr(e, "seconds"): seconds = e.seconds`. -/
def floodSeconds (sec : Option Nat) : Nat :=
  match sec with
  | some s => s
  | none => 30

/-- Result of awaiting the action in the asyncio worker. -/
inductive ExecResult (V : Type) where
  | ok (v : V)
  | err (e : PyErr)

/-- Combined mutable state the asyncio worker step acts on. -/
structure AsyncStepResult (A V : Type) where
  qs : LimiterState A
  pausedUntil : Nat
  futStore : Nat → Option (FutVal V)

/-- The settle phase of `GlobalRateLimiter._worker` (limiter.py lines
90-117), applied to a popped item `(dedupKey, func, future)` after the
action finished with `res` at monotonic time `now`:
success settles the future; a flood-classified error sets
`paused_until = now + seconds` and re-queues the item at the front without
settling; any other error settles the future with the exception. -/
def workerHandleResult {A V : Type} (func : A) (future : Nat)
    (dedupKey : String) (now : Nat) (res : ExecResult V)
    (qs : LimiterState A) (pausedUntil : Nat)
    (store : Nat → Option (FutVal V)) : AsyncStepResult A V :=
  match res with
  | .ok v => ⟨qs, pausedUntil, trySettle store future (.value v)⟩
  | .err e =>
    if isFloodMsg e.msg then
      ⟨enqueueInternal func future dedupKey true qs,
        now + floodSeconds e.seconds, store⟩
    else
      ⟨qs, pausedUntil, trySettle store future (.error e)⟩

/-- A queue operation: an admission (`_enqueue_internal`) or a worker pop. -/
inductive QOp (A : Type) where
  | submit (func : A) (fut : Nat) (key : String) (front : Bool)
  | pop

/-- Apply one queue operation. A pop on an empty queue leaves the state
unchanged (the worker blocks on the condition variable instead). -/
def applyOp {A : Type} : QOp A → LimiterState A → LimiterState A
  | .submit f fut k fr, s => enqueueInternal f fut k fr s
  | .pop, s =>
    match workerPop s with
    | none => s
    | some (_, s') => s'

/-- Apply a sequence of queue operations, oldest first. -/
def applyOps {A : Type} (ops : List (QOp A)) (s : LimiterState A) :
    LimiterState A :=
  ops.foldl (fun t op => applyOp op t) s

/-- Enqueue a batch of (func, future) submissions under one dedup key at
normal priority, oldest first (the public `enqueue` path). -/
def enqueueMany {A : Type} (subs : List (A × Nat)) (dedupKey : String)
    (s : LimiterState A) : LimiterState A :=
  subs.foldl (fun t af => enqueueInternal af.1 af.2 dedupKey false t) s

/-- The sequence of (key, action) invocations a drain of the queue performs:
repeatedly pop the front item and execute its installed action (fuelled by
`n`; `n = s.queueList.length` drains fully). -/
def drainRun {A : Type} : Nat → LimiterState A → List (String × A)
  | 0, _ => []
  | n + 1, s =>
    match workerPop s with
    | none => []
    | some ((k, f, _), s') => (k, f) :: drainRun n s'

/-- The pause-deadline update of the thread variant (rate_limiter.py lines
96-98): `self._pause_until = max(self._pause_until, time.time() + wait_seconds)`. -/
def threadPauseUpdate (pauseUntil now waitSeconds : Nat) : Nat :=
  max pauseUntil (now + waitSeconds)

/-- Result of running the action in the thread variant's worker
(`task_future.result()`): a value, cancellation, or an exception. -/
inductive ThreadExec (V : Type) where
  | ok (v : V)
  | cancelled
  | err (e : PyErr)

/-- Outcome of one thread-variant worker step. -/
structure ThreadStepResult (V : Type) where
  pauseUntil : Nat
  futStore : Nat → Option (FutVal V)
  invoked : Bool

/-- The result handling of the thread variant's worker (rate_limiter.py
lines 80-101): success or cancellation settle the future; an exception
whose `seconds` attribute is truthy max-merges the pause deadline, and the
exception is then settled into the future in every case. -/
def threadHandleResult {V : Type} (future : Nat) (now : Nat)
    (res : ThreadExec V) (pauseUntil : Nat)
    (store : Nat → Option (FutVal V)) : Nat × (Nat → Option (FutVal V)) :=
  match res with
  | .ok v => (pauseUntil, trySettle store future (.value v))
  | .cancelled => (pauseUntil, trySettle store future .cancelled)
  | .err e =>
    let pause' :=
      match e.seconds with
      | some s => if s ≠ 0 then threadPauseUpdate pauseUntil now s else pauseUntil
      | none => pauseUntil
    (pause', trySettle store future (.error e))

/-- One full dequeue step of the thread variant's worker (rate_limiter.py
lines 66-103): after pulling `(task_fn, future, loop)` from the queue, if
the future is already done the item is discarded without invoking the
action; otherwise the action runs and its result is handled. -/
def threadWorkerStep {V : Type} (future : Nat) (now : Nat)
    (runAction : Unit → ThreadExec V) (pauseUntil : Nat)
    (store : Nat → Option (FutVal V)) : ThreadStepResult V :=
  if (store future).isSome then
    ⟨pauseUntil, store, false⟩
  else
    let r := threadHandleResult future now (runAction ()) pauseUntil store
    ⟨r.1, r.2, true⟩

/-! ### Helper lemmas about the compaction queue -/

theorem enq_compact_queueList {A : Type} {s : LimiterState A} {k : String}
    {p : A × Nat} (h : s.queueMap k = some p) (f : A) (fut : Nat)
    (fr : Bool) : (enqueueInternal f fut k fr s).queueList = s.queueList := by
  simp [enqueueInternal, h]

theorem enq_compact_queueMap_self {A : Type} {s : LimiterState A}
    {k : String} {p : A × Nat} (h : s.queueMap k = some p) (f : A)
    (fut : Nat) (fr : Bool) :
    (enqueueInternal f fut k fr s).queueMap k = some (f, p.2) := by
  simp [enqueueInternal, h]

theorem enq_queueMap_other {A : Type} (s : LimiterState A) (k : String)
    (f : A) (fut : Nat) (fr : Bool) {q : String} (hq : q ≠ k) :
    (enqueueInternal f fut k fr s).queueMap q = s.queueMap q := by
  unfold enqueueInternal
  cases h : s.queueMap k with
  | none => simp [hq]
  | some p => simp [hq]

theorem enq_new_queueList {A : Type} {s : LimiterState A} {k : String}
    (h : s.queueMap k = none) (f : A) (fut : Nat) (fr : Bool) :
    (enqueueInternal f fut k fr s).queueList =
      if fr then k :: s.queueList else s.queueList ++ [k] := by
  simp [enqueueInternal, h]

theorem enq_new_queueMap_self {A : Type} {s : LimiterState A} {k : String}
    (h : s.queueMap k = none) (f : A) (fut : Nat) (fr : Bool) :
    (enqueueInternal f fut k fr s).queueMap k = some (f, fut) := by
  simp [enqueueInternal, h]

theorem queueInvariant_enqueueInternal {A : Type} {s : LimiterState A}
    (hs : queueInvariant s) (f : A) (fut : Nat) (k : String) (fr : Bool) :
    queueInvariant (enqueueInternal f fut k fr s) := by
  obtain ⟨hmem, hnd⟩ := hs
  cases h : s.queueMap k with
  | some p =>
    refine ⟨fun q => ?_, ?_⟩
    · rw [enq_compact_queueList h f fut fr]
      by_cases hq : q = k
      · subst hq
        rw [enq_compact_queueMap_self h f fut fr]
        simp [hmem q, h]
      · rw [enq_queueMap_other s k f fut fr hq]
        exact hmem q
    · rw [enq_compact_queueList h f fut fr]
      exact hnd
  | none =>
    have hknot : k ∉ s.queueList := by
      intro hk
      have := (hmem k).mp hk
      rw [h] at this
      simp at this
    refine ⟨fun q => ?_, ?_⟩
    · rw [enq_new_queueList h f fut fr]
      by_cases hq : q = k
      · subst hq
        rw [enq_new_queueMap_self h f fut fr]
        cases fr <;> simp
      · rw [enq_queueMap_other s k f fut fr hq]
        cases fr <;> simp [hq, hmem q]
    · rw [enq_new_queueList h f fut fr]
      cases fr with
      | true => simpa using ⟨hknot, hnd⟩
      | false => simpa [List.nodup_append] using ⟨hnd, hknot⟩

theorem workerPop_eq_some {A : Type} {s : LimiterState A} {k : String}
    {f : A} {fut : Nat} {s' : LimiterState A}
    (h : workerPop s = some ((k, f, fut), s')) :
    s.queueList = k :: s'.queueList ∧ s.queueMap k = some (f, fut) ∧
      s'.queueMap k = none ∧
      (∀ q, q ≠ k → s'.queueMap q = s.queueMap q) := by
  unfold workerPop at h
  cases hl : s.queueList with
  | nil => simp only [hl] at h; exact absurd h (by simp)
  | cons k0 rest =>
    simp only [hl] at h
    cases hm : s.queueMap k0 with
    | none => simp only [hm] at h; exact absurd h (by simp)
    | some p =>
      obtain ⟨f0, fut0⟩ := p
      simp only [hm, Option.some.injEq, Prod.mk.injEq] at h
      obtain ⟨⟨hk, hf, hfut⟩, hs'⟩ := h
      subst hk hf hfut
      refine ⟨by rw [← hs'], hm, by rw [← hs']; simp,
        fun q hq => by rw [← hs']; simp [hq]⟩

theorem queueInvariant_workerPop {A : Type} {s : LimiterState A}
    (hs : queueInvariant s) {k : String} {f : A} {fut : Nat}
    {s' : LimiterState A} (h : workerPop s = some ((k, f, fut), s')) :
    queueInvariant s' := by
  obtain ⟨hmem, hnd⟩ := hs
  obtain ⟨hl, _, hnone, hother⟩ := workerPop_eq_some h
  have hknot : k ∉ s'.queueList := by
    rw [hl] at hnd
    exact (List.nodup_cons.mp hnd).1
  refine ⟨fun q => ?_, ?_⟩
  · by_cases hq : q = k
    · subst hq
      simp [hnone, hknot]
    · rw [hother q hq]
      rw [← hmem q, hl]
      simp [hq]
  · rw [hl] at hnd
    exact (List.nodup_cons.mp hnd).2

theorem queueInvariant_applyOp {A : Type} {s : LimiterState A}
    (hs : queueInvariant s) (op : QOp A) : queueInvariant (applyOp op s) := by
  cases op with
  | submit f fut k fr => exact queueInvariant_enqueueInternal hs f fut k fr
  | pop =>
    cases h : workerPop s with
    | none => simpa only [applyOp, h] using hs
    | some r =>
      obtain ⟨⟨k, f, fut⟩, s'⟩ := r
      simpa only [applyOp, h] using queueInvariant_workerPop hs h

theorem queueInvariant_applyOps {A : Type} {s : LimiterState A}
    (hs : queueInvariant s) (ops : List (QOp A)) :
    queueInvariant (applyOps ops s) := by
  induction ops generalizing s with
  | nil => exact hs
  | cons op rest ih =>
    simpa [applyOps, List.foldl_cons] using ih (queueInvariant_applyOp hs op)

theorem enqueueMany_of_mem {A : Type} {s : LimiterState A} {k : String}
    {a0 : A} {fut0 : Nat} (h : s.queueMap k = some (a0, fut0))
    (subs : List (A × Nat)) :
    (enqueueMany subs k s).queueList = s.queueList ∧
      (enqueueMany subs k s).queueMap k =
        some ((subs.map Prod.fst).getLastD a0, fut0) := by
  induction subs generalizing s a0 with
  | nil => simp [enqueueMany, h]
  | cons af rest ih =>
    have hlist := enq_compact_queueList h af.1 af.2 false
    have hmap := enq_compact_queueMap_self h af.1 af.2 false
    have step : enqueueMany (af :: rest) k s =
        enqueueMany rest k (enqueueInternal af.1 af.2 k false s) := by
      simp [enqueueMany, List.foldl_cons]
    rw [step]
    obtain ⟨ih1, ih2⟩ := ih hmap
    refine ⟨by rw [ih1, hlist], by rw [ih2, List.map_cons, List.getLastD_cons]⟩

theorem drainRun_filter_count {A : Type} (k : String) :
    ∀ (n : Nat) (s : LimiterState A),
      ((drainRun n s).filter (fun p => p.1 = k)).length ≤
        s.queueList.count k := by
  intro n
  induction n with
  | zero => intro s; simp [drainRun]
  | succ m ih =>
    intro s
    unfold drainRun
    cases h : workerPop s with
    | none => simp
    | some r =>
      obtain ⟨⟨k0, f0, fut0⟩, s'⟩ := r
      obtain ⟨hl, _, _, _⟩ := workerPop_eq_some h
      rw [hl]
      by_cases hk : k0 = k
      · subst hk
        simp only [List.filter_cons, decide_eq_true_eq, if_pos rfl,
          List.length_cons, List.count_cons_self]
        exact Nat.succ_le_succ (ih s')
      · simp only [List.filter_cons, decide_eq_true_eq, if_neg hk]
        rw [List.count_cons_of_ne (by exact fun hh => hk hh.symm)]
        exact ih s'

theorem drainRun_action {A : Type} :
    ∀ (n : Nat) (s : LimiterState A) (p : String × A),
      p ∈ drainRun n s → ∃ fut, s.queueMap p.1 = some (p.2, fut) := by
  intro n
  induction n with
  | zero => intro s p hp; simp [drainRun] at hp
  | succ m ih =>
    intro s p hp
    unfold drainRun at hp
    cases h : workerPop s with
    | none => rw [h] at hp; simp at hp
    | some r =>
      obtain ⟨⟨k0, f0, fut0⟩, s'⟩ := r
      rw [h] at hp
      obtain ⟨_, hmk, hnone, hother⟩ := workerPop_eq_some h
      rcases List.mem_cons.mp hp with hphead | hptail
      · subst hphead
        exact ⟨fut0, hmk⟩
      · obtain ⟨fut, hfut⟩ := ih s' p hptail
        by_cases hk : p.1 = k0
        · rw [hk, hnone] at hfut
          exact absurd hfut (by simp)
        · exact ⟨fut, by rw [← hother p.1 hk]; exact hfut⟩

theorem sublist_of_cons_of_ne {a b h : String} {t : List String}
    (hs : [a, b].Sublist (h :: t)) (hne : a ≠ h) : [a, b].Sublist t := by
  cases hs with
  | cons _ htail => exact htail
  | cons₂ _ _ => exact absurd rfl hne

theorem fifo_step {A : Type} {s : LimiterState A} {a b : String}
    (hs : queueInvariant s) (hab : a ≠ b) (op : QOp A)
    (hop : ∀ f fut k fr, op = QOp.submit f fut k fr →
      (k = a → fr = true) ∧ k ≠ b)
    (hrel : a ∉ s.queueList ∨ [a, b].Sublist s.queueList ∨
      b ∉ s.queueList) :
    a ∉ (applyOp op s).queueList ∨ [a, b].Sublist (applyOp op s).queueList ∨
      b ∉ (applyOp op s).queueList := by
  cases op with
  | submit f fut k fr =>
    obtain ⟨hka, hkb⟩ := hop f fut k fr rfl
    simp only [applyOp]
    cases hm : s.queueMap k with
    | some p =>
      rw [enq_compact_queueList hm f fut fr]
      exact hrel
    | none =>
      have hknot : k ∉ s.queueList := by
        intro hk
        have := (hs.1 k).mp hk
        rw [hm] at this
        simp at this
      rw [enq_new_queueList hm f fut fr]
      by_cases hk : k = a
      · subst hk
        rw [hka rfl]
        by_cases hbmem : b ∈ s.queueList
        · exact Or.inr (Or.inl
            (List.Sublist.cons₂ k (List.singleton_sublist.mpr hbmem)))
        · exact Or.inr (Or.inr (by
            intro hmem
            rcases List.mem_cons.mp hmem with hh | hh
            · exact hab hh.symm
            · exact hbmem hh))
      · cases fr with
        | true =>
          rcases hrel with h1 | h2 | h3
          · exact Or.inl (by
              intro hmem
              rcases List.mem_cons.mp hmem with hh | hh
              · exact hk hh.symm
              · exact h1 hh)
          · exact Or.inr (Or.inl (List.Sublist.cons k h2))
          · exact Or.inr (Or.inr (by
              intro hmem
              rcases List.mem_cons.mp hmem with hh | hh
              · exact hkb hh.symm
              · exact h3 hh))
        | false =>
          rcases hrel with h1 | h2 | h3
          · exact Or.inl (by
              intro hmem
              rcases List.mem_append.mp hmem with hh | hh
              · exact h1 hh
              · exact hk (List.mem_singleton.mp hh).symm)
          · exact Or.inr (Or.inl
              (h2.trans (List.sublist_append_left s.queueList [k])))
          · exact Or.inr (Or.inr (by
              intro hmem
              rcases List.mem_append.mp hmem with hh | hh
              · exact h3 hh
              · exact hkb (List.mem_singleton.mp hh).symm))
  | pop =>
    cases h : workerPop s with
    | none => simpa only [applyOp, h] using hrel
    | some r =>
      obtain ⟨⟨k0, f0, fut0⟩, s'⟩ := r
      obtain ⟨hl, _, _, _⟩ := workerPop_eq_some h
      have hnd := hs.2
      rw [hl] at hnd
      simp only [applyOp, h]
      rcases hrel with h1 | h2 | h3
      · rw [hl] at h1
        exact Or.inl (fun hmem => h1 (List.mem_cons_of_mem k0 hmem))
      · rw [hl] at h2
        by_cases hk : a = k0
        · subst hk
          exact Or.inl ((List.nodup_cons.mp hnd).1)
        · exact Or.inr (Or.inl (sublist_of_cons_of_ne h2 hk))
      · rw [hl] at h3
        exact Or.inr (Or.inr (fun hmem => h3 (List.mem_cons_of_mem k0 hmem)))

theorem fifo_ops {A : Type} {s : LimiterState A} {a b : String}
    (hs : queueInvariant s) (hab : a ≠ b) (ops : List (QOp A))
    (hops : ∀ op ∈ ops, ∀ f fut k fr, op = QOp.submit f fut k fr →
      (k = a → fr = true) ∧ k ≠ b)
    (hrel : a ∉ s.queueList ∨ [a, b].Sublist s.queueList ∨
      b ∉ s.queueList) :
    a ∉ (applyOps ops s).queueList ∨
      [a, b].Sublist (applyOps ops s).queueList ∨
      b ∉ (applyOps ops s).queueList := by
  induction ops generalizing s with
  | nil => exact hrel
  | cons op rest ih =>
    have h1 := fifo_step hs hab op (hops op (List.mem_cons_self op rest)) hrel
    have hs1 := queueInvariant_applyOp hs op
    have step : applyOps (op :: rest) s = applyOps rest (applyOp op s) := by
      simp [applyOps, List.foldl_cons]
    rw [step]
    exact ih hs1 (fun o ho => hops o (List.mem_cons_of_mem op ho)) h1

/-! ### Claim theorems -/

/-- C6: the queue-state invariant (identical key-sets of `order` and
`pending`, no duplicate keys in `order`) holds after every admit and every
pop; admit inserts the key into both structures (or, on compaction, leaves
the order list and the key position untouched), and pop removes the key
from both. -/
theorem C6_queue_invariant {A : Type} (s : LimiterState A)
    (hs : queueInvariant s) (f : A) (fut : Nat) (k : String) (fr : Bool) :
    queueInvariant (enqueueInternal f fut k fr s) ∧
    (∀ p, s.queueMap k = some p →
      (enqueueInternal f fut k fr s).queueList = s.queueList ∧
      (enqueueInternal f fut k fr s).queueMap k = some (f, p.2)) ∧
    (s.queueMap k = none →
      k ∈ (enqueueInternal f fut k fr s).queueList ∧
      (enqueueInternal f fut k fr s).queueMap k = some (f, fut)) ∧
    (∀ k0 f0 fut0 s', workerPop s = some ((k0, f0, fut0), s') →
      queueInvariant s' ∧ k0 ∉ s'.queueList ∧ s'.queueMap k0 = none) := by
  refine ⟨queueInvariant_enqueueInternal hs f fut k fr, ?_, ?_, ?_⟩
  · intro p hp
    exact ⟨enq_compact_queueList hp f fut fr, enq_compact_queueMap_self hp f fut fr⟩
  · intro hnone
    refine ⟨?_, enq_new_queueMap_self hnone f fut fr⟩
    rw [enq_new_queueList hnone f fut fr]
    cases fr <;> simp
  · intro k0 f0 fut0 s' hpop
    obtain ⟨hl, _, hnone, _⟩ := workerPop_eq_some hpop
    have hnd := hs.2
    rw [hl] at hnd
    exact ⟨queueInvariant_workerPop hs hpop, (List.nodup_cons.mp hnd).1, hnone⟩

theorem C6_queue_invariant_witness :
    queueInvariant (enqueueInternal 7 0 "edit:msg1" false
      (⟨[], fun _ => none⟩ : LimiterState Nat)) :=
  (C6_queue_invariant ⟨[], fun _ => none⟩
    ⟨fun q => by simp, List.nodup_nil⟩ 7 0 "edit:msg1" false).1

/-- C7: when an error is classified as a rate violation, the asyncio
worker pauses for the error's suggested wait duration if it carries one
(`e.seconds`), and for the fixed 30-second fallback if it does not; the
thread variant, whose classification itself requires a truthy `seconds`
value, uses that carried duration in its max-merge update. -/
theorem C7_cooldown {A V : Type} (func : A) (future : Nat)
    (dedupKey : String) (now : Nat) (e : PyErr) (qs : LimiterState A)
    (paused : Nat) (store : Nat → Option (FutVal V))
    (hflood : isFloodMsg e.msg = true) :
    (workerHandleResult func future dedupKey now (.err e) qs paused
        store).pausedUntil = now + floodSeconds e.seconds ∧
    (∀ s, floodSeconds (some s) = s) ∧ floodSeconds none = 30 ∧
    (∀ (s pU : Nat) (st : Nat → Option (FutVal V)), s ≠ 0 →
      (threadHandleResult future now (.err ⟨e.msg, some s⟩) pU st).1 =
        threadPauseUpdate pU now s) := by
  refine ⟨?_, fun s => rfl, rfl, ?_⟩
  · simp [workerHandleResult, hflood]
  · intro s pU st hsz
    simp [threadHandleResult, hsz]

theorem C7_cooldown_witness :
    (workerHandleResult (A := Nat) (V := Nat) 0 0 "k" 11
        (.err ⟨"FloodWaitError: wait of 20s", none⟩)
        ⟨[], fun _ => none⟩ 0 (fun _ => none)).pausedUntil = 11 + 30 := by
  have h := C7_cooldown (A := Nat) (V := Nat) 0 0 "k" 11
    ⟨"FloodWaitError: wait of 20s", none⟩ ⟨[], fun _ => none⟩ 0
    (fun _ => none) (by decide)
  exact h.1

/-- C8: settlement of a completion handle is idempotent: settling an
already-settled future is a no-op, the first settlement wins, and the
value read after any later settle attempt is still the first one. -/
theorem C8_idempotent_settlement {V : Type} (store : Nat → Option (FutVal V))
    (fid : Nat) (r1 r2 : FutVal V) :
    trySettle (trySettle store fid r1) fid r2 = trySettle store fid r1 ∧
    (store fid = none →
      trySettle store fid r1 fid = some r1 ∧
      trySettle (trySettle store fid r1) fid r2 fid = some r1) := by
  have hfix : trySettle (trySettle store fid r1) fid r2 =
      trySettle store fid r1 := by
    funext i
    by_cases h : i = fid
    · subst h
      cases hs : store i <;> simp [trySettle, hs]
    · simp [trySettle, h]
  refine ⟨hfix, fun hnone => ⟨by simp [trySettle, hnone], ?_⟩⟩
  rw [hfix]
  simp [trySettle, hnone]

theorem C8_idempotent_settlement_witness :
    trySettle (trySettle (fun _ => none) 0 (FutVal.value (5 : Nat)))
        0 (FutVal.value 8) 0 = some (FutVal.value 5) :=
  ((C8_idempotent_settlement (fun _ => none) 0 (FutVal.value 5)
    (FutVal.value 8)).2 rfl).2

/-- C9: the asyncio worker classifies an exception as a rate violation
exactly when its lowercased string representation contains the substring
"flood" or the substring "wait"; a so-classified error is never settled
into the future (retried instead), while an error containing neither
substring is settled into the future as a terminal error — so an ordinary
failure mentioning "wait" is retried forever, and a genuine rate error
whose text lacks both substrings is surfaced. -/
theorem C9_flood_classification {A V : Type} (func : A) (future : Nat)
    (dedupKey : String) (now : Nat) (e : PyErr) (qs : LimiterState A)
    (paused : Nat) (store : Nat → Option (FutVal V)) :
    (isFloodMsg e.msg = true ↔
      (containsSub "flood".data (e.msg.data.map Char.toLower) = true ∨
        containsSub "wait".data (e.msg.data.map Char.toLower) = true)) ∧
    (isFloodMsg e.msg = true →
      (workerHandleResult func future dedupKey now (.err e) qs paused
        store).futStore = store) ∧
    (isFloodMsg e.msg = false →
      (workerHandleResult func future dedupKey now (.err e) qs paused
        store).futStore = trySettle store future (.error e)) ∧
    isFloodMsg "connection reset, please wait and retry" = true ∧
    isFloodMsg "too many requests" = false := by
  refine ⟨?_, ?_, ?_, by decide, by decide⟩
  · simp [isFloodMsg, Bool.or_eq_true]
  · intro h
    simp [workerHandleResult, h]
  · intro h
    simp [workerHandleResult, h]

theorem C9_flood_classification_witness :
    (workerHandleResult (A := Nat) (V := Nat) 3 0 "send:chat7" 2
        (.err ⟨"connection reset, please wait and retry", none⟩)
        ⟨[], fun _ => none⟩ 9 (fun _ => none)).futStore = (fun _ => none) :=
  (C9_flood_classification (A := Nat) (V := Nat) 3 0 "send:chat7" 2
    ⟨"connection reset, please wait and retry", none⟩ ⟨[], fun _ => none⟩ 9
    (fun _ => none)).2.1 (by decide)

/-- C10: in the thread-based variant, an item whose future is already done
at dequeue time is discarded: the action is not invoked and no settlement
or pause update happens; the action runs only when the future is still
pending at dequeue time. -/
theorem C10_skip_done {V : Type} (future : Nat) (now : Nat)
    (runAction : Unit → ThreadExec V) (pauseUntil : Nat)
    (store : Nat → Option (FutVal V)) :
    ((store future).isSome = true →
      threadWorkerStep future now runAction pauseUntil store =
        ⟨pauseUntil, store, false⟩) ∧
    (store future = none →
      (threadWorkerStep future now runAction pauseUntil store).invoked =
        true) := by
  constructor
  · intro h
    simp [threadWorkerStep, h]
  · intro h
    simp [threadWorkerStep, h]

theorem C10_skip_done_witness :
    threadWorkerStep 0 4 (fun _ => ThreadExec.ok (9 : Nat)) 3
        (fun i => if i = 0 then some (FutVal.cancelled) else none) =
      ⟨3, (fun i => if i = 0 then some (FutVal.cancelled) else none),
        false⟩ :=
  (C10_skip_done 0 4 (fun _ => ThreadExec.ok 9) 3
    (fun i => if i = 0 then some FutVal.cancelled else none)).1 rfl

/-- C4: N ≥ 2 submissions under one dedup key made before the dispatcher
pops that key collapse to a single queue slot holding the last submitted
action, so a drain of the queue invokes at most one action for that key;
together with the at most one invocation already popped earlier, at most 2
invocations occur — never N. -/
theorem C4_compaction_bound {A : Type} (s : LimiterState A)
    (hs : queueInvariant s) (k : String) (first : A × Nat)
    (rest : List (A × Nat)) :
    (enqueueMany (first :: rest) k s).queueList.count k ≤ 1 ∧
    (∃ fut0, (enqueueMany (first :: rest) k s).queueMap k =
      some ((rest.map Prod.fst).getLastD first.1, fut0)) ∧
    (∀ n, 1 + ((drainRun n (enqueueMany (first :: rest) k s)).filter
        (fun p => p.1 = k)).length ≤ 2) ∧
    (∀ n p, p ∈ drainRun n (enqueueMany (first :: rest) k s) → p.1 = k →
      p.2 = (rest.map Prod.fst).getLastD first.1) := by
  have step : enqueueMany (first :: rest) k s =
      enqueueMany rest k (enqueueInternal first.1 first.2 k false s) := by
    simp [enqueueMany, List.foldl_cons]
  have hcount1 : ∀ t : LimiterState A, t.queueList.Nodup →
      t.queueList.count k ≤ 1 := fun t hnd =>
    List.nodup_iff_count_le_one.mp hnd k
  obtain ⟨hfol1, hfol2⟩ :
      (enqueueMany (first :: rest) k s).queueList =
        (enqueueInternal first.1 first.2 k false s).queueList ∧
      ∃ fut0, (enqueueMany (first :: rest) k s).queueMap k =
        some ((rest.map Prod.fst).getLastD first.1, fut0) := by
    cases hm : s.queueMap k with
    | none =>
      have hone := enq_new_queueMap_self hm first.1 first.2 false
      obtain ⟨hl2, hm2⟩ := enqueueMany_of_mem hone rest
      rw [step]
      exact ⟨hl2, ⟨first.2, hm2⟩⟩
    | some p =>
      have hone := enq_compact_queueMap_self hm first.1 first.2 false
      obtain ⟨hl2, hm2⟩ := enqueueMany_of_mem hone rest
      rw [step]
      exact ⟨hl2, ⟨p.2, hm2⟩⟩
  have hinv1 : queueInvariant (enqueueInternal first.1 first.2 k false s) :=
    queueInvariant_enqueueInternal hs first.1 first.2 k false
  have hcnt : (enqueueMany (first :: rest) k s).queueList.count k ≤ 1 := by
    rw [hfol1]
    exact hcount1 _ hinv1.2
  obtain ⟨fut0, hmap⟩ := hfol2
  refine ⟨hcnt, ⟨fut0, hmap⟩, ?_, ?_⟩
  · intro n
    have := drainRun_filter_count k n (enqueueMany (first :: rest) k s)
    omega
  · intro n p hp hpk
    obtain ⟨fut, hfut⟩ := drainRun_action n _ p hp
    rw [hpk, hmap] at hfut
    exact (Prod.mk.injEq .. ▸ (Option.some.injEq _ _ ▸ hfut : _ = _)).1.symm

theorem C4_compaction_bound_witness :
    (enqueueMany [(1, 0), (2, 1), (3, 2)] "edit:msg1"
      (⟨[], fun _ => none⟩ : LimiterState Nat)).queueList.count "edit:msg1"
      ≤ 1 :=
  (C4_compaction_bound ⟨[], fun _ => none⟩
    ⟨fun q => by simp, List.nodup_nil⟩ "edit:msg1" (1, 0)
    [(2, 1), (3, 2)]).1

/-- C5: among distinct never-compacted dedup keys the dispatcher is FIFO:
if key `a` sits before key `b` in the order list, then after any sequence
of admissions and pops in which `a` is only ever re-admitted at the front
(a flood-recovered re-insertion) and `b` is not re-admitted, whenever `b`
is at the front about to be popped, `a` is no longer queued — so the action
of `a` starts no later than the action of `b`. -/
theorem C5_fifo_across_keys {A : Type} (s : LimiterState A) (a b : String)
    (ops : List (QOp A)) (hs : queueInvariant s) (hab : a ≠ b)
    (hsub : [a, b].Sublist s.queueList)
    (hops : ∀ op ∈ ops, ∀ f fut k fr, op = QOp.submit f fut k fr →
      (k = a → fr = true) ∧ k ≠ b)
    (hhead : (applyOps ops s).queueList.head? = some b) :
    a ∉ (applyOps ops s).queueList := by
  have hrel := fifo_ops hs hab ops hops (Or.inr (Or.inl hsub))
  have hinv := queueInvariant_applyOps hs ops
  cases hl : (applyOps ops s).queueList with
  | nil => rw [hl] at hhead; exact absurd hhead (by simp)
  | cons h t =>
    rw [hl] at hhead
    simp only [List.head?_cons, Option.some.injEq] at hhead
    subst hhead
    rw [hl] at hrel
    rcases hrel with h1 | h2 | h3
    · exact h1
    · have h2t := sublist_of_cons_of_ne h2 hab
      have hbt : h ∈ t := h2t.subset (List.mem_cons_of_mem a (List.mem_singleton.mpr rfl))
      have hnd := hinv.2
      rw [hl] at hnd
      exact absurd hbt (List.nodup_cons.mp hnd).1
    · exact absurd (List.mem_cons_self h t) h3

theorem C5_fifo_across_keys_witness :
    "A" ∉ (applyOps [QOp.pop]
      (⟨["A", "B"], fun q => if q = "A" then some ((1 : Nat), 0)
        else if q = "B" then some (2, 1) else none⟩ :
        LimiterState Nat)).queueList := by
  refine C5_fifo_across_keys _ "A" "B" [QOp.pop] ⟨?_, ?_⟩ (by decide)
    ((List.Sublist.refl _)) ?_ ?_
  · intro q
    by_cases h1 : q = "A"
    · simp [h1]
    · by_cases h2 : q = "B" <;> simp [h1, h2]
  · decide
  · intro op hop f fut k fr heq
    rw [List.mem_singleton] at hop
    subst hop
    exact absurd heq (by simp)
  · simp [applyOps, applyOp, workerPop]

/-- C1 counterexample: the claim says every rate-violation report updates
`paused_until` to the maximum of its current value and now + cooldown. In
the asyncio variant the update is a plain assignment `now + cooldown`:
with the deadline currently 100, a violation at time 0 with retry-after 2
leaves the deadline at 2, not at max 100 2 = 100 — the deadline was
lowered. -/
theorem C1_counterexample :
    (workerHandleResult (A := Nat) (V := Nat) 0 0 "k" 0
        (.err ⟨"floodwait", some 2⟩) ⟨[], fun _ => none⟩ 100
        (fun _ => none)).pausedUntil = 2 ∧
    max 100 (0 + 2) = 100 ∧ (2 : Nat) ≠ 100 := by
  refine ⟨?_, by decide, by decide⟩
  simp [workerHandleResult, show isFloodMsg "floodwait" = true from by decide,
    floodSeconds]

/-- C1 (amended): in the thread-based variant the pause deadline is updated
to max(current, now + cooldown), so it never decreases, and two
rate-violation reports at the same instant with retry-after 5 and 2,
applied in either order, leave the deadline 5 seconds past that instant;
in the asyncio variant the deadline is plainly assigned now + cooldown with
no max, so a smaller cooldown reported while a longer pause is pending
would lower it. -/
theorem C1_thread_pause_monotone (pauseUntil now w : Nat)
    (hp : pauseUntil ≤ now) :
    pauseUntil ≤ threadPauseUpdate pauseUntil now w ∧
    threadPauseUpdate (threadPauseUpdate pauseUntil now 5) now 2 = now + 5 ∧
    threadPauseUpdate (threadPauseUpdate pauseUntil now 2) now 5 = now + 5 := by
  refine ⟨le_max_left _ _, ?_, ?_⟩ <;> simp [threadPauseUpdate] <;> omega

theorem C1_thread_pause_monotone_witness :
    threadPauseUpdate (threadPauseUpdate 3 10 5) 10 2 = 10 + 5 :=
  (C1_thread_pause_monotone 3 10 7 (by decide)).2.1

/-- C2 counterexample: the claim says a failure classified as a rate
violation is never surfaced to the caller. In the thread-based variant a
flood error (truthy `seconds` attribute) raises the pause deadline but is
then settled into the caller's future as an exception — it is surfaced,
and there is no re-queue. -/
theorem C2_counterexample :
    (threadHandleResult (V := Nat) 0 10
        (.err ⟨"A wait of 5 seconds is required", some 5⟩) 0
        (fun _ => none)).2 0 =
      some (FutVal.error ⟨"A wait of 5 seconds is required", some 5⟩) ∧
    (threadHandleResult (V := Nat) 0 10
        (.err ⟨"A wait of 5 seconds is required", some 5⟩) 0
        (fun _ => none)).1 = 10 + 5 := by
  constructor
  · simp [threadHandleResult, trySettle]
  · simp [threadHandleResult, threadPauseUpdate]

/-- C2 (amended): in the asyncio variant a flood-classified failure is
never surfaced: the future store is untouched, the same
{dedup key, action, future} is re-admitted at the front of the queue, and
the pause deadline is raised to now + cooldown; a non-flood failure
settles the future with the error and leaves queue and pause unchanged. In
the thread-based variant a rate violation max-merges the pause deadline
but the error IS settled into the caller's future (no re-queue). -/
theorem C2_flood_requeue {A V : Type} (func : A) (future : Nat)
    (dedupKey : String) (now : Nat) (e : PyErr) (qs : LimiterState A)
    (paused : Nat) (store : Nat → Option (FutVal V))
    (hkey : qs.queueMap dedupKey = none) (hpause : paused ≤ now) :
    (isFloodMsg e.msg = true →
      (workerHandleResult func future dedupKey now (.err e) qs paused
        store).futStore = store ∧
      (workerHandleResult func future dedupKey now (.err e) qs paused
        store).qs.queueList = dedupKey :: qs.queueList ∧
      (workerHandleResult func future dedupKey now (.err e) qs paused
        store).qs.queueMap dedupKey = some (func, future) ∧
      (workerHandleResult func future dedupKey now (.err e) qs paused
        store).pausedUntil = now + floodSeconds e.seconds ∧
      paused ≤ (workerHandleResult func future dedupKey now (.err e) qs
        paused store).pausedUntil) ∧
    (isFloodMsg e.msg = false →
      (workerHandleResult func future dedupKey now (.err e) qs paused
        store).futStore = trySettle store future (.error e) ∧
      (workerHandleResult func future dedupKey now (.err e) qs paused
        store).qs = qs ∧
      (workerHandleResult func future dedupKey now (.err e) qs paused
        store).pausedUntil = paused) ∧
    (∀ (w pU : Nat) (st : Nat → Option (FutVal V)), w ≠ 0 → st future = none →
      (threadHandleResult future now (.err ⟨e.msg, some w⟩) pU st).1 =
        threadPauseUpdate pU now w ∧
      (threadHandleResult future now (.err ⟨e.msg, some w⟩) pU st).2 future =
        some (.error ⟨e.msg, some w⟩)) := by
  refine ⟨?_, ?_, ?_⟩
  · intro hflood
    have hlist := enq_new_queueList hkey func future true
    have hmap := enq_new_queueMap_self hkey func future true
    refine ⟨?_, ?_, ?_, ?_, ?_⟩
    · simp [workerHandleResult, hflood]
    · simp only [workerHandleResult, hflood, if_true]
      simpa using hlist
    · simp only [workerHandleResult, hflood, if_true]
      exact hmap
    · simp [workerHandleResult, hflood]
    · simp only [workerHandleResult, hflood, if_true]
      exact le_trans hpause (Nat.le_add_right now _)
  · intro hflood
    simp [workerHandleResult, hflood]
  · intro w pU st hw hst
    constructor
    · simp [threadHandleResult, hw]
    · simp [threadHandleResult, trySettle, hst]

theorem C2_flood_requeue_witness :
    (workerHandleResult (A := Nat) (V := Nat) 4 0 "edit:msg1" 6
        (.err ⟨"FloodWaitError", some 5⟩) ⟨[], fun _ => none⟩ 6
        (fun _ => none)).qs.queueList = ["edit:msg1"] := by
  have h := (C2_flood_requeue (A := Nat) (V := Nat) 4 0 "edit:msg1" 6
    ⟨"FloodWaitError", some 5⟩ ⟨[], fun _ => none⟩ 6 (fun _ => none)
    rfl (le_refl 6)).1 (by decide)
  exact h.2.1

/-- C3 counterexample: the claim says every caller who submitted under a
compacted key gets a future that eventually settles with the final
outcome. Two `enqueue` calls under key "k" install futures 0 and 1; at
compaction the second caller's future 1 is discarded (the slot keeps
future 0 with the new action 20), the drained queue settles only future 0
with the final result, future 1 is still pending, and the emptied system
retains no reference to it — the second caller waits forever. -/
theorem C3_counterexample :
    (enqueueInternal 20 1 "k" false (enqueueInternal 10 0 "k" false
        (⟨[], fun _ => none⟩ : LimiterState Nat))).queueList = ["k"] ∧
    (enqueueInternal 20 1 "k" false (enqueueInternal 10 0 "k" false
        (⟨[], fun _ => none⟩ : LimiterState Nat))).queueMap "k" =
      some (20, 0) ∧
    ((workerPop (enqueueInternal 20 1 "k" false (enqueueInternal 10 0 "k"
        false (⟨[], fun _ => none⟩ : LimiterState Nat)))).map
      (fun r => (r.1, r.2.queueList))) = some (("k", 20, 0), []) ∧
    (workerHandleResult (A := Nat) 20 0 "k" 5 (ExecResult.ok (99 : Nat))
        ⟨[], fun _ => none⟩ 0 (fun _ => none)).futStore 0 =
      some (FutVal.value 99) ∧
    (workerHandleResult (A := Nat) 20 0 "k" 5 (ExecResult.ok (99 : Nat))
        ⟨[], fun _ => none⟩ 0 (fun _ => none)).futStore 1 = none := by
  refine ⟨?_, ?_, ?_, ?_, ?_⟩ <;>
    simp [enqueueInternal, workerPop, workerHandleResult, trySettle]

/-- C3 (amended): callers who share a compacted key see an outcome
consistent with one final invocation — the single queue slot holds the
last-installed action paired with the FIRST caller's future, and executing
it settles that first future with the last action's result; but only the
first caller's future settles: a later caller's future is discarded at
compaction and never appears in the queue state again, so that caller's
own returned future never settles. -/
theorem C3_handle_sharing {A V : Type} (s : LimiterState A) (k : String)
    (a1 a2 : A) (f1 f2 : Nat) (hkey : s.queueMap k = none) :
    (enqueueInternal a2 f2 k false (enqueueInternal a1 f1 k false
      s)).queueMap k = some (a2, f1) ∧
    (∀ (now : Nat) (v : V) (qs : LimiterState A) (paused : Nat)
        (store : Nat → Option (FutVal V)), store f1 = none →
      (workerHandleResult a2 f1 k now (.ok v) qs paused store).futStore f1 =
        some (.value v)) ∧
    (f2 ≠ f1 → (∀ q p, s.queueMap q = some p → p.2 ≠ f2) →
      ∀ q p, (enqueueInternal a2 f2 k false (enqueueInternal a1 f1 k false
        s)).queueMap q = some p → p.2 ≠ f2) := by
  have h1 := enq_new_queueMap_self hkey a1 f1 false
  have h2 := enq_compact_queueMap_self h1 a2 f2 false
  refine ⟨by simpa using h2, ?_, ?_⟩
  · intro now v qs paused store hst
    simp [workerHandleResult, trySettle, hst]
  · intro hne hfree q p hp
    by_cases hq : q = k
    · subst hq
      have h2x : (enqueueInternal a2 f2 q false (enqueueInternal a1 f1 q
          false s)).queueMap q = some (a2, f1) := by simpa using h2
      rw [h2x] at hp
      injection hp with hpp
      rw [← hpp]
      exact Ne.symm hne
    · rw [enq_queueMap_other _ k a2 f2 false hq,
        enq_queueMap_other _ k a1 f1 false hq] at hp
      exact hfree q p hp

theorem C3_handle_sharing_witness :
    (enqueueInternal 20 1 "k" false (enqueueInternal 10 0 "k" false
      (⟨[], fun _ => none⟩ : LimiterState Nat))).queueMap "k" =
      some (20, 0) :=
  (C3_handle_sharing (V := Nat) ⟨[], fun _ => none⟩ "k" 10 20 0 1 rfl).1
